import Mathlib

/-!
Verification development for the quale compiler front-end (quale-lang/quale).

The Rust sources under scrutiny are shallowly embedded below:
  - src/types.rs       -> `Quale.Ty` (Rust `Type`; the Lean name `Type` is reserved)
  - src/ast.rs         -> `Quale.VarAST`, `Quale.LiteralAST`, `Quale.Expr`,
                          `Quale.FunctionAST`, `Quale.ModuleAST`, `Quale.Qast`,
                          `Quale.Qbit.fromStr`, `Quale.Expr.get_type`
  - src/inference.rs   -> `Quale.inferExpr`, `Quale.inferFromTable`, `Quale.inferFunction`
  - src/mangle.rs      -> `Quale.mangleFns`
  - src/codegen/qasm.rs-> `Quale.QasmModule`
  - src/lexer.rs       -> `Quale.classifyWord` (the keyword table of `next_token`)
  - src/parser.rs      -> `Quale.parseCmdline`

Modelling conventions:
  - Rust `f64` payloads of AST literals are carried as their source text
    (a `String`); no verified property computes with the floating-point value,
    only with parse success, which `Quale.parsesF64` decides following the
    grammar of Rust's `f64::from_str`.
  - Interior mutability (`Rc<RefCell<..>>`) is modelled by explicit state
    passing: functions that mutate an expression in place return the updated
    expression alongside their result.
  - `Vec<Expr>` fields inside the `Expr`/`FunctionAST` cycle are modelled by a
    bespoke mutually-inductive list `ExprList` so that all recursions stay
    structural (hence computable by `rfl`/`decide`).
  - `ast.rs` has a `Lit_Boolean` literal whose `get_type` refers to a
    `Type::Bool` variant that `types.rs` does not declare, and which the
    literal matches in `inference.rs` omit; this ill-typed corner is outside
    every claim and is not modelled.
  - `SymbolTable` wraps a `HashSet`; it is modelled as a list with
    insert-if-absent semantics.  The properties proved below do not depend on
    iteration order.
-/

namespace Quale

/-! ### types.rs -/

/-- The subtype lattice of types.rs (`Type`).  The Rust enum derives
`PartialOrd` from declaration order: `Bottom < Bit < Qbit < Rad < F64`. -/
inductive Ty where
  | Bottom
  | Bit
  | Qbit
  | Rad
  | F64
deriving DecidableEq, Repr

/-- Rank of a `Ty` in the derived Rust ordering (declaration order). -/
def Ty.rank : Ty → Nat
  | .Bottom => 0
  | .Bit => 1
  | .Qbit => 2
  | .Rad => 3
  | .F64 => 4

/-- `Type::bigtype`: `if t1 > t2 { t1 } else { t2 }` under the derived order. -/
def Ty.bigtype (t1 t2 : Ty) : Ty :=
  if t2.rank < t1.rank then t1 else t2

/-- `Type::smalltype`: `if t1 < t2 { t1 } else { t2 }` under the derived order. -/
def Ty.smalltype (t1 t2 : Ty) : Ty :=
  if t1.rank < t2.rank then t1 else t2

/-! ### lexer.rs `Location` and ast.rs scalar pieces -/

/-- lexer.rs `Location`. -/
structure Location where
  path : String
  row : Nat
  col : Nat
deriving DecidableEq, Repr

/-- `Location::default()` is `("unknown", 0, 0)`. -/
def Location.default : Location := ⟨"unknown", 0, 0⟩

instance : Inhabited Location := ⟨Location.default⟩

/-- attributes.rs `Attribute`. -/
inductive Attribute where
  | Deter
  | NonDeter
deriving DecidableEq, Repr

/-- attributes.rs `Attributes` (a vector of `Attribute`). -/
structure Attributes where
  attrs : List Attribute
deriving DecidableEq, Repr

/-- `Attributes::is_empty`. -/
def Attributes.isEmpty (a : Attributes) : Bool := a.attrs.isEmpty

instance : Inhabited Attributes := ⟨⟨[]⟩⟩

/-- ast.rs `Opcode`. -/
inductive Opcode where
  | Add | Sub | Mul | Div | Eq | Neq | LT | GT | LTE | GTE
deriving DecidableEq, Repr

/-- ast.rs `VarAST`: name, location, type, unary-negative flag. -/
structure VarAST where
  name : String
  location : Location
  type_ : Ty
  unary_negative : Bool
deriving DecidableEq, Repr

/-- `VarAST::new`. -/
def VarAST.new (name : String) (location : Location) : VarAST :=
  ⟨name, location, .Bottom, false⟩

/-- `VarAST::new_with_type`. -/
def VarAST.new_with_type (name : String) (location : Location) (t : Ty) : VarAST :=
  ⟨name, location, t, false⟩

/-- `VarAST::set_type`. -/
def VarAST.set_type (v : VarAST) (t : Ty) : VarAST := { v with type_ := t }

/-- `VarAST::is_typed` holds iff the type differs from `Bottom`. -/
def VarAST.is_typed (v : VarAST) : Bool := v.type_ ≠ Ty.Bottom

/-- ast.rs `Qbit` literal: the two probability amplitudes, kept as their
source text (see the module comment on `f64` payloads). -/
structure QbitLit where
  amp_0 : String
  amp_1 : String
deriving DecidableEq, Repr

/-- ast.rs `LiteralAST` (without the ill-typed `Lit_Boolean` corner, see the
module comment). -/
inductive LiteralAST where
  | Lit_Qbit (q : QbitLit)
  | Lit_Digit (d : String)
  | Lit_Str (s : List Char)
deriving DecidableEq, Repr

/-! ### ast.rs expression and function AST

`Expr::FnCall` carries a whole `FunctionAST`, so the two types are mutually
inductive; the `Vec<Expr>` fields are represented by `ExprList`. -/

mutual
/-- ast.rs `Expr`. -/
inductive Expr where
  | Var (v : VarAST)
  | BinaryExpr (lhs : Expr) (op : Opcode) (rhs : Expr)
  | Tensor (elems : ExprList)
  | FnCall (f : FunctionAST) (args : ExprList)
  | Let (var : VarAST) (val : Expr)
  | Assign (var : VarAST) (val : Expr)
  | Conditional (cond : Expr) (truth_block : ExprList) (false_block : ExprList)
  | Literal (lit : LiteralAST)

/-- A list of `Expr` (Rust `Vec<QccCell<Expr>>`). -/
inductive ExprList where
  | nil
  | cons (head : Expr) (tail : ExprList)

/-- ast.rs `FunctionAST`. -/
inductive FunctionAST where
  | mk (name : String) (location : Location) (params : List VarAST)
      (input_type : List Ty) (output_type : Ty) (attrs : Attributes)
      (body : ExprList)
end

namespace FunctionAST

/-- Field accessor for `FunctionAST.name`. -/
def name : FunctionAST → String
  | .mk n _ _ _ _ _ _ => n

/-- Field accessor for `FunctionAST.location`. -/
def location : FunctionAST → Location
  | .mk _ l _ _ _ _ _ => l

/-- Field accessor for `FunctionAST.params`. -/
def params : FunctionAST → List VarAST
  | .mk _ _ p _ _ _ _ => p

/-- Field accessor for `FunctionAST.input_type`. -/
def input_type : FunctionAST → List Ty
  | .mk _ _ _ i _ _ _ => i

/-- Field accessor for `FunctionAST.output_type`. -/
def output_type : FunctionAST → Ty
  | .mk _ _ _ _ o _ _ => o

/-- Field accessor for `FunctionAST.attrs`. -/
def attrs : FunctionAST → Attributes
  | .mk _ _ _ _ _ a _ => a

/-- Field accessor for `FunctionAST.body`. -/
def body : FunctionAST → ExprList
  | .mk _ _ _ _ _ _ b => b

/-- `FunctionAST::insert_input_type`: push one type onto the input vector. -/
def insert_input_type : FunctionAST → Ty → FunctionAST
  | .mk n l p i o a b, t => .mk n l p (i ++ [t]) o a b

/-- `FunctionAST::set_output_type`. -/
def set_output_type : FunctionAST → Ty → FunctionAST
  | .mk n l p i _ a b, t => .mk n l p i t a b

/-- `FunctionAST::set_name`. -/
def set_name : FunctionAST → String → FunctionAST
  | .mk _ l p i o a b, n => .mk n l p i o a b

/-- Replace the body of a function. -/
def set_body : FunctionAST → ExprList → FunctionAST
  | .mk n l p i o a _, b => .mk n l p i o a b

end FunctionAST

namespace ExprList

/-- Length of an `ExprList`. -/
def length : ExprList → Nat
  | .nil => 0
  | .cons _ t => t.length + 1

/-- Last element of an `ExprList` (Rust `Vec::last`). -/
def lastOption : ExprList → Option Expr
  | .nil => none
  | .cons x .nil => some x
  | .cons _ (.cons y t) => lastOption (.cons y t)

/-- Head of an `ExprList`. -/
def headOption : ExprList → Option Expr
  | .nil => none
  | .cons x _ => some x

/-- Convert from a Lean list. -/
def ofList : List Expr → ExprList
  | [] => .nil
  | x :: t => .cons x (ofList t)

/-- Convert to a Lean list. -/
def toList : ExprList → List Expr
  | .nil => []
  | .cons x t => x :: t.toList

end ExprList

/-! ### ast.rs `Expr::get_type` -/

mutual
/-- `Expr::get_type` from ast.rs (structural type of an expression). -/
def Expr.get_type : Expr → Ty
  | .Var v => v.type_
  | .BinaryExpr lhs _ rhs =>
      let lhs_type := lhs.get_type
      let rhs_type := rhs.get_type
      if lhs_type = rhs_type then lhs_type
      else if (lhs_type = Ty.Qbit ∧ rhs_type = Ty.F64)
           ∨ (lhs_type = Ty.F64 ∧ rhs_type = Ty.Qbit) then Ty.Qbit
      else Ty.Bottom
  | .Tensor .nil => Ty.Bottom
  | .Tensor (.cons x _) => x.get_type
  | .FnCall f _ => f.output_type
  | .Let var _ => var.type_
  | .Assign var _ => var.type_
  | .Conditional _ truth_block _ => getTypeOfLast truth_block
  | .Literal (.Lit_Str _) => Ty.Bottom
  | .Literal (.Lit_Digit _) => Ty.F64
  | .Literal (.Lit_Qbit _) => Ty.Qbit

/-- The `Conditional` arm of `Expr::get_type`: type of the last expression of
the truth block, `Bottom` when there is none. -/
def getTypeOfLast : ExprList → Ty
  | .nil => Ty.Bottom
  | .cons x .nil => x.get_type
  | .cons _ (.cons y t) => getTypeOfLast (.cons y t)
end

/-! ### error.rs -/

/-- error.rs `QccErrorKind` (the closed error taxonomy). -/
inductive QccErrorKind where
  | CmdlineErr | InvalidArgs | NoSuchArg | NoFile
  | ExpectedAttr | UnexpectedAttr | LexerError | ParseError
  | ExpectedFnForAttr | ExpectedFn | ExpectedFnName | ExpectedFnArgs
  | ExpectedParamType | ExpectedType | UnexpectedType | ExpectedFnBody
  | ExpectedFnReturnType | ExpectedFnBodyEnd | ExpectedMod | UnknownModName
  | ExpectedLet | ExpectedAssign | ExpectedSemicolon | UnexpectedStr
  | UnexpectedDigit | ExpectedExpr | ExpectedParenth | UnexpectedExpr
  | UnknownOpcode | UnknownBinaryExpr | ExpectedOpcode | ExpectedComma
  | TypeError | TypeMismatch | UnknownType | ExpectedQbit
  | ExpectedAmpinQbit | ExpectedColon | UnknownImport | TranslationError
  | ExpectedOpenBracket | ExpectedClosedBracket
deriving DecidableEq, Repr

deriving instance DecidableEq for Except

/-! ### inference.rs `infer_expr`

The Rust function mutates the expression through `RefCell`s while computing a
type; the embedding returns the updated expression with the `Option<Type>`
result.  The `Assign` arm: the Rust match omits `Expr::Assign`, making the
trailing `Some(Type::Bottom)` at the end of `infer_expr` the only value that
arm could produce; it is modelled accordingly (no claim exercises it). -/

mutual
/-- Skeleton size of an expression: counts `Expr` constructors only.  The
mutations performed by `infer_expr` (type fields, `input_type` pushes) never
change it, which is what justifies termination of the double traversal in the
`Tensor` arm. -/
def Expr.size : Expr → Nat
  | .Var _ => 1
  | .BinaryExpr lhs _ rhs => lhs.size + rhs.size + 1
  | .Tensor es => es.size + 1
  | .FnCall _ args => args.size + 1
  | .Let _ val => val.size + 1
  | .Assign _ val => val.size + 1
  | .Conditional cond tb fb => cond.size + tb.size + fb.size + 1
  | .Literal _ => 1

/-- Skeleton size of an expression list. -/
def ExprList.size : ExprList → Nat
  | .nil => 0
  | .cons x t => x.size + t.size + 1
end

mutual
/-- inference.rs `infer_expr`, with the size-preservation proof needed for
termination bundled in the result (the plain wrapper is `inferExpr`).  The
Rust function mutates the expression through `RefCell`s while computing a
type; the embedding returns the updated expression with the result. -/
def inferExprA : (e : Expr) → {p : Expr × Option Ty // (Prod.fst p).size = e.size}
  | .Var v => ⟨(.Var v, if v.type_ = Ty.Bottom then none else some v.type_), rfl⟩
  | .BinaryExpr lhs op rhs =>
      match inferExprA lhs with
      | ⟨(lhs', none), hl⟩ => ⟨(.BinaryExpr lhs' op rhs, none), by
          simp only [Expr.size] at hl ⊢; omega⟩
      | ⟨(lhs', some lhs_type), hl⟩ =>
        match inferExprA rhs with
        | ⟨(rhs', none), hr⟩ => ⟨(.BinaryExpr lhs' op rhs', none), by
            simp only [Expr.size] at hl hr ⊢; omega⟩
        | ⟨(rhs', some rhs_type), hr⟩ =>
          ⟨(.BinaryExpr lhs' op rhs',
            if (lhs_type = Ty.F64 ∧ rhs_type = Ty.Qbit)
                ∨ (lhs_type = Ty.Qbit ∧ rhs_type = Ty.F64) then
              some (Ty.bigtype lhs_type rhs_type)
            else if lhs_type ≠ rhs_type then none
            else some lhs_type), by
            simp only [Expr.size] at hl hr ⊢; omega⟩
  | .Tensor es =>
      match inferTensorScanA es with
      | ⟨(es1, false), h1⟩ => ⟨(.Tensor es1, none), by
          simp only [Expr.size] at h1 ⊢; omega⟩
      | ⟨(es1, true), h1⟩ =>
        let tensor_type := match es1.headOption with
          | none => Ty.Bottom
          | some x => x.get_type
        match inferTensorCheckA tensor_type es1 with
        | ⟨(es2, false), h2⟩ => ⟨(.Tensor es2, none), by
            simp only [Expr.size] at h1 h2 ⊢; omega⟩
        | ⟨(es2, true), h2⟩ => ⟨(.Tensor es2, some tensor_type), by
            simp only [Expr.size] at h1 h2 ⊢; omega⟩
  | .FnCall f args =>
      if f.output_type = Ty.Bottom ∧ args.length ≠ 0 then
        match inferArgsA f args with
        | ⟨(f', args', false), h⟩ => ⟨(.FnCall f' args', none), by
            simp only [Expr.size] at h ⊢; omega⟩
        | ⟨(f', args', true), h⟩ => ⟨(.FnCall f' args', some f'.output_type), by
            simp only [Expr.size] at h ⊢; omega⟩
      else ⟨(.FnCall f args, some f.output_type), rfl⟩
  | .Let var val =>
      if var.type_ = Ty.Bottom then
        match inferExprA val with
        | ⟨(val', none), h⟩ => ⟨(.Let var val', none), by
            simp only [Expr.size] at h ⊢; omega⟩
        | ⟨(val', some rhs_type), h⟩ =>
            ⟨(.Let (var.set_type rhs_type) val', some rhs_type), by
              simp only [Expr.size] at h ⊢; omega⟩
      else
        match inferExprA val with
        | ⟨(val', none), h⟩ => ⟨(.Let var val', none), by
            simp only [Expr.size] at h ⊢; omega⟩
        | ⟨(val', some rhs_type), h⟩ =>
            ⟨(.Let var val',
              if var.type_ ≠ rhs_type then none else some var.type_), by
              simp only [Expr.size] at h ⊢; omega⟩
  | .Assign var val => ⟨(.Assign var val, some Ty.Bottom), rfl⟩
  | .Conditional cond tb fb =>
      match inferBlockA tb with
      | ⟨(tb', truth_block_type), ht⟩ =>
        match inferBlockA fb with
        | ⟨(fb', false_block_type), hf⟩ =>
          ⟨(.Conditional cond tb' fb',
            if truth_block_type = false_block_type then truth_block_type
            else some Ty.Bottom), by
            simp only [Expr.size] at ht hf ⊢; omega⟩
  | .Literal (.Lit_Digit d) => ⟨(.Literal (.Lit_Digit d), some Ty.F64), rfl⟩
  | .Literal (.Lit_Str s) => ⟨(.Literal (.Lit_Str s), some Ty.Bottom), rfl⟩
  | .Literal (.Lit_Qbit q) => ⟨(.Literal (.Lit_Qbit q), some Ty.Qbit), rfl⟩
termination_by e => e.size
decreasing_by all_goals (simp_all only [Expr.size, ExprList.size]; omega)

/-- First `for` loop of the `Tensor` arm of `infer_expr`: infers each element,
stopping at the first failure (`return None`), keeping mutations made so far. -/
def inferTensorScanA : (es : ExprList) → {p : ExprList × Bool // (Prod.fst p).size = es.size}
  | .nil => ⟨(.nil, true), rfl⟩
  | .cons x xs =>
    match inferExprA x with
    | ⟨(x', none), h⟩ => ⟨(.cons x' xs, false), by
        simp only [ExprList.size] at h ⊢; omega⟩
    | ⟨(x', some _), h⟩ =>
      match inferTensorScanA xs with
      | ⟨(xs', ok), h2⟩ => ⟨(.cons x' xs', ok), by
          simp only [ExprList.size] at h h2 ⊢; omega⟩
termination_by es => es.size
decreasing_by all_goals (simp_all only [Expr.size, ExprList.size]; omega)

/-- Second `for` loop of the `Tensor` arm of `infer_expr`: re-infers each
element and compares against the tensor type. -/
def inferTensorCheckA : Ty → (es : ExprList) → {p : ExprList × Bool // (Prod.fst p).size = es.size}
  | _, .nil => ⟨(.nil, true), rfl⟩
  | target, .cons x xs =>
    match inferExprA x with
    | ⟨(x', none), h⟩ => ⟨(.cons x' xs, false), by
        simp only [ExprList.size] at h ⊢; omega⟩
    | ⟨(x', some t), h⟩ =>
      if t ≠ target then ⟨(.cons x' xs, false), by
        simp only [ExprList.size] at h ⊢; omega⟩
      else
        match inferTensorCheckA target xs with
        | ⟨(xs', ok), h2⟩ => ⟨(.cons x' xs', ok), by
            simp only [ExprList.size] at h h2 ⊢; omega⟩
termination_by _ es => es.size
decreasing_by all_goals (simp_all only [Expr.size, ExprList.size]; omega)

/-- The argument loop of the `FnCall` arm of `infer_expr`: infers each
argument, pushing its type onto the callee's `input_type`, stopping at the
first failure (`?`), keeping the pushes made so far. -/
def inferArgsA : FunctionAST → (es : ExprList) →
    {p : FunctionAST × ExprList × Bool // (Prod.fst (Prod.snd p)).size = es.size}
  | f, .nil => ⟨(f, .nil, true), rfl⟩
  | f, .cons a rest =>
    match inferExprA a with
    | ⟨(a', none), h⟩ => ⟨(f, .cons a' rest, false), by
        simp only [ExprList.size] at h ⊢; omega⟩
    | ⟨(a', some t), h⟩ =>
      match inferArgsA (f.insert_input_type t) rest with
      | ⟨(f2, rest2, ok), h2⟩ => ⟨(f2, .cons a' rest2, ok), by
          simp only [ExprList.size] at h h2 ⊢; omega⟩
termination_by _ es => es.size
decreasing_by all_goals (simp_all only [Expr.size, ExprList.size]; omega)

/-- The block loops of the `Conditional` arm of `infer_expr`: every element is
inferred; the loop variable keeps the last element's result, and the initial
`Some(Bottom)` survives only for an empty block. -/
def inferBlockA : (es : ExprList) → {p : ExprList × Option Ty // (Prod.fst p).size = es.size}
  | .nil => ⟨(.nil, some Ty.Bottom), rfl⟩
  | .cons x .nil =>
      match inferExprA x with
      | ⟨(x', res), h⟩ => ⟨(.cons x' .nil, res), by
          simp only [ExprList.size] at h ⊢; omega⟩
  | .cons x (.cons y t) =>
      match inferExprA x with
      | ⟨(x', _), h⟩ =>
        match inferBlockA (.cons y t) with
        | ⟨(rest', res), h2⟩ => ⟨(.cons x' rest', res), by
            simp only [ExprList.size] at h h2 ⊢; omega⟩
termination_by es => es.size
decreasing_by all_goals (simp_all only [Expr.size, ExprList.size]; omega)
end

/-- inference.rs `infer_expr` (plain wrapper of `inferExprA`). -/
def inferExpr (e : Expr) : Expr × Option Ty := (inferExprA e).val

/-- The argument loop of the `FnCall` arm of `infer_expr` (plain wrapper). -/
def inferArgs (f : FunctionAST) (es : ExprList) : FunctionAST × ExprList × Bool :=
  (inferArgsA f es).val

/-! ### inference.rs symbol tables and `infer_from_table` -/

/-- inference.rs `SymbolTable<VarAST>`: a `HashSet` modelled as a list with
insert-if-absent.  The lookups proved about below are insensitive to the
iteration order a `HashSet` would exhibit. -/
abbrev SymbolTable := List VarAST

/-- `SymbolTable::push` (`HashSet::insert`). -/
def SymbolTable.push (st : SymbolTable) (v : VarAST) : SymbolTable :=
  if v ∈ st then st else st ++ [v]

/-- The `Var` arm of `infer_from_table` scans a whole table, the last matching
typed entry overwriting the accumulator that starts at `Bottom`. -/
def lookupLastTyped (st : SymbolTable) (name : String) : Ty :=
  st.foldl (fun acc p => if p.name = name ∧ p.is_typed then p.type_ else acc) Ty.Bottom

/-- The `FnCall` arm of `infer_from_table` returns at the first matching typed
entry of the function table. -/
def lookupFirstTyped : SymbolTable → String → Option Ty
  | [], _ => none
  | p :: rest, name =>
    if p.name = name ∧ p.is_typed then some p.type_ else lookupFirstTyped rest name

mutual
/-- inference.rs `infer_from_table`: resolves residual `Bottom` types from the
parameter, local and function tables.  Returns the mutated expression and
`none` on success, `some (.ok e)` for an untyped residual (reported as
`UnknownType`), or `some (.error k)` for a mismatch.  The Rust match omits
`Expr::Assign`, and the `Lit_Str` arm is `todo!()` (diverges); neither is
reachable in any claim and both are modelled as success. -/
def inferFromTable (param_st local_st function_st : SymbolTable) :
    Expr → Expr × Option (Except QccErrorKind Expr)
  | .Var var =>
      let param_type := lookupLastTyped param_st var.name
      let local_type := lookupLastTyped local_st var.name
      if param_type = local_type ∧ param_type = Ty.Bottom then
        (.Var var, some (.ok (.Var (VarAST.new_with_type var.name var.location var.type_))))
      else if param_type ≠ Ty.Bottom then
        (.Var (var.set_type param_type), none)
      else
        (.Var (var.set_type local_type), none)
  | .BinaryExpr lhs op rhs =>
      match inferFromTable param_st local_st function_st lhs with
      | (lhs', some info) => (.BinaryExpr lhs' op rhs, some info)
      | (lhs', none) =>
        match inferFromTable param_st local_st function_st rhs with
        | (rhs', info?) => (.BinaryExpr lhs' op rhs', info?)
  | .Tensor es =>
      match inferFromTableList param_st local_st function_st es with
      | (es', info?) => (.Tensor es', info?)
  | .FnCall f args =>
      match inferFromTableList param_st local_st function_st args with
      | (args', some info) => (.FnCall f args', some info)
      | (args', none) =>
        match lookupFirstTyped function_st f.name with
        | some t => (.FnCall (f.set_output_type t) args', none)
        | none =>
          (.FnCall f args',
            some (.ok (.FnCall
              (.mk f.name f.location [] [] f.output_type ⟨[]⟩ .nil) .nil)))
  | .Let var val =>
      match inferFromTable param_st local_st function_st val with
      | (val', some info) => (.Let var val', some info)
      | (val', none) =>
        let var_type := var.type_
        let val_type := val'.get_type
        if ¬ var.is_typed then
          (.Let (var.set_type val_type) val', none)
        else if (var_type = Ty.Qbit ∨ var_type = Ty.Bit)
            ∧ (val_type = Ty.Qbit ∨ val_type = Ty.Bit)
            ∧ var_type ≠ val_type then
          (.Let var val', none)
        else if var_type = val_type then
          (.Let var val', none)
        else if var_type ≠ val_type then
          (.Let var val', some (.error QccErrorKind.TypeMismatch))
        else
          (.Let var val', some (.ok (.Var (VarAST.new var.name var.location))))
  | .Assign var val => (.Assign var val, none)
  | .Conditional cond tb fb =>
      match inferFromTableList param_st local_st function_st tb with
      | (tb', some info) => (.Conditional cond tb' fb, some info)
      | (tb', none) =>
        match inferFromTableList param_st local_st function_st fb with
        | (fb', info?) => (.Conditional cond tb' fb', info?)
  | .Literal l => (.Literal l, none)

/-- Sequential early-exit traversal used by the `Tensor`, `FnCall` and
`Conditional` arms of `infer_from_table`. -/
def inferFromTableList (param_st local_st function_st : SymbolTable) :
    ExprList → ExprList × Option (Except QccErrorKind Expr)
  | .nil => (.nil, none)
  | .cons x xs =>
    match inferFromTable param_st local_st function_st x with
    | (x', some info) => (.cons x' xs, some info)
    | (x', none) =>
      match inferFromTableList param_st local_st function_st xs with
      | (xs', info?) => (.cons x' xs', info?)
end

/-! ### ast.rs modules and mangle.rs `mangle_fns` -/

/-- ast.rs `ModuleAST`. -/
structure ModuleAST where
  name : String
  location : Location
  functions : List FunctionAST

/-- ast.rs `Qast`: an ordered sequence of modules. -/
structure Qast where
  modules : List ModuleAST

mutual
/-- mangle.rs `mangle_fns`: rewrites every `FnCall` whose target is a peer
function of the module (name listed in `functions` and not already containing
a `$`) to the `module$function` form.  The Rust match has no `Assign` arm
(ill-typed corner, unreachable in the claims); it is modelled as identity like
the other non-recursive arms. -/
def mangleFns (module_name : String) (functions : List String) : Expr → Expr
  | .BinaryExpr lhs op rhs =>
      .BinaryExpr (mangleFns module_name functions lhs) op
        (mangleFns module_name functions rhs)
  | .Let var val => .Let var (mangleFns module_name functions val)
  | .FnCall f args =>
      let args' := mangleFnsList module_name functions args
      if f.name ∈ functions ∧ ¬ (f.name.contains '$') then
        .FnCall (f.set_name (module_name ++ "$" ++ f.name)) args'
      else
        .FnCall f args'
  | .Tensor es => .Tensor (mangleFnsList module_name functions es)
  | .Conditional c tb fb =>
      .Conditional (mangleFns module_name functions c)
        (mangleFnsList module_name functions tb)
        (mangleFnsList module_name functions fb)
  | .Var v => .Var v
  | .Assign v val => .Assign v val
  | .Literal l => .Literal l

/-- `mangle_fns` over an expression vector. -/
def mangleFnsList (module_name : String) (functions : List String) : ExprList → ExprList
  | .nil => .nil
  | .cons x xs =>
      .cons (mangleFns module_name functions x) (mangleFnsList module_name functions xs)
end

/-- One module's contribution to `Qast::merge`: the local function-name list
is collected first, then every function is renamed `<module>$<name>` and every
instruction passed through `mangle_fns`. -/
def ModuleAST.mergedFunctions (m : ModuleAST) : List FunctionAST :=
  let functions := m.functions.map FunctionAST.name
  m.functions.map (fun fn =>
    (fn.set_name (m.name ++ "$" ++ fn.name)).set_body
      (mangleFnsList m.name functions fn.body))

/-- ast.rs `Qast::merge`: flattens all modules into one synthetic module named
`Main`, renaming functions and mangling call sites on the way. -/
def Qast.merge (q : Qast) : Qast :=
  ⟨[⟨"Main", Location.default, (q.modules.map ModuleAST.mergedFunctions).flatten⟩]⟩

/-! ### inference.rs `infer` (per-function driver) -/

/-- Phase A of `infer` for one function: the per-function local table starts
with every `Let` left-hand side that carries a non-`Bottom` annotation. -/
def collectTypedLets : ExprList → SymbolTable → SymbolTable
  | .nil, acc => acc
  | .cons e rest, acc =>
      let acc' := match e with
        | .Let d _ => if d.type_ ≠ Ty.Bottom then acc.push d else acc
        | _ => acc
      collectTypedLets rest acc'

/-- One iteration of the instruction loop of `infer` (inference.rs 215-285):
run `infer_expr`; on a non-`Bottom` success record a typed `Let` lhs in the
local table; on `None`/`Bottom` fall back to `infer_from_table`, recording a
typed `Let` lhs on success and flagging a diagnostic otherwise. -/
def inferInstruction (param_st function_st local_st : SymbolTable) (e : Expr) :
    Expr × SymbolTable × Bool :=
  match inferExpr e with
  | (e1, instruction_type) =>
    let local1 :=
      if instruction_type.isSome ∧ instruction_type ≠ some Ty.Bottom then
        match e1 with
        | .Let var _ => if var.is_typed then local_st.push var else local_st
        | _ => local_st
      else local_st
    if instruction_type = none ∨ instruction_type = some Ty.Bottom then
      match inferFromTable param_st local1 function_st e1 with
      | (e2, none) =>
        let local2 := match e2 with
          | .Let var _ => if var.is_typed then local1.push var else local1
          | _ => local1
        (e2, local2, false)
      | (e2, some _) => (e2, local1, true)
    else (e1, local1, false)

/-- The instruction loop of `infer` over a whole body, threading the local
table and the `seen_errors` flag. -/
def inferBody (param_st function_st : SymbolTable) :
    ExprList → SymbolTable → ExprList × SymbolTable × Bool
  | .nil, local_st => (.nil, local_st, false)
  | .cons e rest, local_st =>
    match inferInstruction param_st function_st local_st e with
    | (e', local', err) =>
      match inferBody param_st function_st rest local' with
      | (rest', local2, errs) => (.cons e' rest', local2, err || errs)

/-- Replace the last element of an `ExprList` (the effect of mutating through
`Function::last_mut`). -/
def ExprList.setLast : ExprList → Expr → ExprList
  | .nil, _ => .nil
  | .cons _ .nil, x => .cons x .nil
  | .cons y (.cons z t), x => .cons y (ExprList.setLast (.cons z t) x)

/-- inference.rs `infer`, restricted to one function (the body of the
`for mut function in &mut *module` loop): two-phase table building, the
instruction loop, then the return-type check on the last instruction, which
promotes a declared `Bottom` output type to the inferred type of the last
expression.  Returns the updated function and the `seen_errors` flag. -/
def inferFunction (function_st : SymbolTable) (f : FunctionAST) : FunctionAST × Bool :=
  let param_st : SymbolTable := f.params.foldl SymbolTable.push []
  let local0 := collectTypedLets f.body []
  match inferBody param_st function_st f.body local0 with
  | (body1, _, errs) =>
    let fn_return_type := f.output_type
    match body1.lastOption with
    | none => (f.set_body body1, errs)
    | some last =>
      match inferExpr last with
      | (last', last_instruction_type) =>
        let body2 := body1.setLast last'
        match last_instruction_type with
        | none => (f.set_body body2, true)
        | some t =>
          if fn_return_type = Ty.Bottom ∧ t ≠ Ty.Bottom then
            ((f.set_body body2).set_output_type t, errs)
          else if t ≠ fn_return_type then
            (f.set_body body2, true)
          else
            (f.set_body body2, errs)

/-- The function table built at the head of each module loop iteration of
`infer`: one entry `name -> output_type` and one entry
`module$name -> output_type` per function. -/
def functionTableOfModule (table0 : SymbolTable) (m : ModuleAST) : SymbolTable :=
  m.functions.foldl (fun st fn =>
    (st.push (VarAST.new_with_type fn.name fn.location fn.output_type)).push
      (VarAST.new_with_type (m.name ++ "$" ++ fn.name) fn.location fn.output_type)) table0

/-- inference.rs `infer`: merge to a monolith, then per module build the
function table and infer every function; `seen_errors` at the end yields
`TypeError`.  Returns the inferred monolith (the Rust original mutates the
shared `Rc` cells of the input AST). -/
def infer (ast : Qast) : Except QccErrorKind Qast :=
  let merged := ast.merge
  let step := fun (acc : SymbolTable × List ModuleAST × Bool) (m : ModuleAST) =>
    let table := functionTableOfModule (Prod.fst acc) m
    let results := m.functions.map (inferFunction table)
    (table, (Prod.fst (Prod.snd acc)) ++ [⟨m.name, m.location, results.map Prod.fst⟩],
      (Prod.snd (Prod.snd acc)) || results.any Prod.snd)
  match merged.modules.foldl step ([], [], false) with
  | (_, mods, errs) => if errs then .error .TypeError else .ok ⟨mods⟩

/-! ### codegen/qasm.rs -/

/-- qasm.rs `QasmVersion`. -/
inductive QasmVersion where
  | V2_0
deriving DecidableEq, Repr

/-- `Display` of `QasmVersion`. -/
def QasmVersion.render : QasmVersion → String
  | .V2_0 => "2.0"

/-- qasm.rs `Qreg` (name and size; the claims only exercise the empty case). -/
structure Qreg where
  name : String
  len : Nat
deriving DecidableEq, Repr

/-- qasm.rs `QasmGate`. -/
structure QasmGate where
  name : String
  params : List String
  qargs : List Qreg
deriving DecidableEq, Repr

/-- `From<&FunctionAST> for QasmGate`: the gate takes the function's (mangled)
name; params and qargs are left empty in this revision. -/
def QasmGate.ofFunction (f : FunctionAST) : QasmGate := ⟨f.name, [], []⟩

/-- `Display` of `QasmGate` (braces written as escapes). -/
def QasmGate.render (g : QasmGate) : String :=
  let qargs_s := String.intercalate ", " (g.qargs.map Qreg.name)
  if g.params.length > 0 then
    let params_s := String.intercalate ", " g.params
    "\ngate " ++ g.name ++ "(" ++ params_s ++ ") " ++ qargs_s ++
      "\n\x7b\n    // body: feature to be implemented\n\x7d\n"
  else
    "\ngate " ++ g.name ++ " " ++ qargs_s ++
      "\n\x7b\n    // body: feature to be implemented\n\x7d\n"

/-- qasm.rs `QasmModule`. -/
structure QasmModule where
  version : QasmVersion
  includes : List String
  gates : List QasmGate
deriving DecidableEq, Repr

/-- `Translator<Qast>::translate` for `QasmModule`: one gate per function
whose attribute list is non-empty and contains `NonDeter`; the result is
wrapped with `From<Vec<QasmGate>>` (version `2.0`, no includes).  The function
iterator over the program (`Qast::iter`, whose body ast.rs does not show) is
represented by the list of the program's functions. -/
def QasmModule.translate (fns : List FunctionAST) : QasmModule :=
  ⟨.V2_0, [],
    (fns.filter (fun f => ¬ f.attrs.isEmpty ∧ f.attrs.attrs.contains .NonDeter)).map
      QasmGate.ofFunction⟩

/-- `Display` of `QasmModule`: the `OPENQASM <version>;` header line, then the
include lines, then the gate blocks. -/
def QasmModule.render (m : QasmModule) : String :=
  "OPENQASM " ++ m.version.render ++ ";\n" ++
    String.join (m.includes.map (fun i => "include \"" ++ i ++ "\";" ++ "\n")) ++
    String.join (m.gates.map QasmGate.render)

/-! ### lexer.rs word classification -/

/-- ast.rs `Token`. -/
inductive Token where
  | Hash | OBracket | CBracket | OParenth | CParenth | OCurly | CCurly
  | Comma | Colon | Semicolon | Bang | Assign
  | Add | Sub | Mul | Div
  | Identifier | Literal | Attribute | Function | Multi | Digit
  | Return | Const | Extern | Module | Import | Let | Qbit
  | If | Else | Alias
  | Equal | Unequal | LessThan | GreaterThan
  | Boolean
deriving DecidableEq, Repr

/-- The word-classification step of `Lexer::next_token` (lexer.rs 362-370):
the accumulated identifier slice is matched against the keyword table,
anything else becoming `Identifier`. -/
def classifyWord (s : String) : Token :=
  match s with
  | "fn" => .Function
  | "return" => .Return
  | "const" => .Const
  | "extern" => .Extern
  | "module" => .Module
  | "let" => .Let
  | _ => .Identifier

/-! ### parser.rs `parse_cmdline` -/

/-- The slice of `Config` that `parse_cmdline` populates (config.rs along with
analyzer/config.rs `src` and optimizer/config.rs `asm` and `level`). -/
structure Config where
  analyze : Bool
  dump_ast : Bool
  dump_ast_only : Bool
  dump_qasm : Bool
  level : Nat
  asm : String
  src : String
deriving DecidableEq, Repr

/-- `Config::new()`: everything off, level `0`, empty paths. -/
def Config.new : Config := ⟨false, false, false, false, 0, "", ""⟩

/-- `str::starts_with` on the character-list view of a string (the built-in
`String.startsWith` is byte-position based and does not reduce in the
kernel). -/
def startsWithS (s pat : String) : Bool := pat.toList.isPrefixOf s.toList

/-- The scan of `str::replace` (non-overlapping occurrences, left to right),
bounded by a fuel that the caller sets to the string length: every step
consumes at least one character of a non-empty pattern's match or one plain
character. -/
def replaceAux (pat rep : List Char) : Nat → List Char → List Char
  | 0, s => s
  | _, [] => []
  | fuel + 1, c :: rest =>
      if pat ≠ [] ∧ pat.isPrefixOf (c :: rest) then
        rep ++ replaceAux pat rep fuel ((c :: rest).drop pat.length)
      else c :: replaceAux pat rep fuel rest

/-- `str::replace` (every use in `parse_cmdline` has a non-empty pattern). -/
def replaceS (s pat rep : String) : String :=
  String.mk (replaceAux pat.toList rep.toList s.toList.length s.toList)

/-- The option loop of `parse_cmdline` followed by its final file checks.
`output_direct` is the `u8` state cell (`|= 0x1` after `-o`, `<<= 0x1` after
consuming an output path); `is_file` stands for `Path::is_file`.  `Ok(None)`
models the `--help`/`-h` early return; unknown flags report `NoSuchArg` and
return `CmdlineErr`. -/
def parseCmdlineLoop (is_file : String → Bool) :
    List String → Config → Nat → Except QccErrorKind (Option Config)
  | [], config, _ =>
      if config.src = "" then .error .NoFile
      else if ¬ is_file config.src then .error .NoFile
      else .ok (some config)
  | opt :: rest, config, output_direct =>
      if startsWithS opt "--" then
        match opt with
        | "--help" => .ok none
        | "--analyze" => parseCmdlineLoop is_file rest { config with analyze := true } output_direct
        | "--dump-ast" => parseCmdlineLoop is_file rest { config with dump_ast := true } output_direct
        | "--dump-ast-only" =>
            parseCmdlineLoop is_file rest { config with dump_ast_only := true } output_direct
        | "--dump-qasm" => parseCmdlineLoop is_file rest { config with dump_qasm := true } output_direct
        | _ => .error .CmdlineErr
      else if startsWithS opt "-" then
        match opt with
        | "-O0" => parseCmdlineLoop is_file rest { config with level := 0 } output_direct
        | "-O1" => parseCmdlineLoop is_file rest { config with level := 1 } output_direct
        | "-O2" => parseCmdlineLoop is_file rest { config with level := 2 } output_direct
        | "-Og" => parseCmdlineLoop is_file rest { config with level := 3 } output_direct
        | "-o" => parseCmdlineLoop is_file rest config (Nat.lor output_direct 1)
        | "-h" => .ok none
        | _ => .error .CmdlineErr
      else
        if output_direct = 1 then
          parseCmdlineLoop is_file rest { config with asm := opt } ((output_direct * 2) % 256)
        else
          let config' := { config with src := opt }
          let config' :=
            if output_direct = 0 then { config' with asm := replaceS opt ".ql" ".s" }
            else config'
          parseCmdlineLoop is_file rest config' output_direct

/-- parser.rs `Parser::parse_cmdline`. -/
def parseCmdline (is_file : String → Bool) (args : List String) :
    Except QccErrorKind (Option Config) :=
  if args.length < 1 then .error .InvalidArgs
  else parseCmdlineLoop is_file args Config.new 0

/-! ### ast.rs `Qbit::from_str`

String slices are modelled as `List Char`; `parsesF64` decides membership in
the grammar accepted by Rust's `f64::from_str` (an optional sign, then one of
`inf`/`infinity`/`nan` case-insensitively or a decimal/exponent literal). -/

/-- The loop of `str::trim_start_matches`, bounded by a fuel that the caller
sets to the string length: each successful strip removes at least one
character, so the fuel never runs out before the loop's own exit. -/
def trimStartAux (pat : List Char) : Nat → List Char → List Char
  | 0, s => s
  | fuel + 1, s =>
      if pat ≠ [] ∧ pat.isPrefixOf s then trimStartAux pat fuel (s.drop pat.length)
      else s

/-- `str::trim_start_matches`: repeatedly strip a (non-empty) prefix. -/
def trimStartMatchesL (pat : List Char) (s : List Char) : List Char :=
  trimStartAux pat s.length s

/-- `str::trim_matches(&['(', ')'])`: strip the matching characters from both
ends. -/
def trimMatchesParen (s : List Char) : List Char :=
  let f := fun c => c = '(' ∨ c = ')'
  ((s.dropWhile (fun c => decide (f c))).reverse.dropWhile (fun c => decide (f c))).reverse

/-- `str::split_once(',')`: split at the first occurrence, excluding it. -/
def splitOnceL (c : Char) : List Char → Option (List Char × List Char)
  | [] => none
  | x :: xs =>
      if x = c then some ([], xs)
      else match splitOnceL c xs with
        | none => none
        | some (a, b) => some (x :: a, b)

/-- `str::trim`: strip whitespace from both ends. -/
def trimL (s : List Char) : List Char :=
  ((s.dropWhile Char.isWhitespace).reverse.dropWhile Char.isWhitespace).reverse

/-- Split at the first character satisfying the predicate, excluding it. -/
def splitFirst (p : Char → Bool) : List Char → Option (List Char × List Char)
  | [] => none
  | x :: xs =>
      if p x then some ([], xs)
      else match splitFirst p xs with
        | none => none
        | some (a, b) => some (x :: a, b)

/-- Mantissa clause of the `f64::from_str` grammar:
`Digits | Digits '.' [Digits] | '.' Digits`. -/
def mantissaOk (s : List Char) : Bool :=
  match splitFirst (fun c => c = '.') s with
  | none => ¬ s.isEmpty ∧ s.all Char.isDigit
  | some (intPart, fracPart) =>
      intPart.all Char.isDigit ∧ fracPart.all Char.isDigit
        ∧ (¬ intPart.isEmpty ∨ ¬ fracPart.isEmpty)

/-- Exponent clause of the `f64::from_str` grammar: optional sign, then at
least one digit. -/
def exponentOk (s : List Char) : Bool :=
  let body := match s with
    | c :: rest => if c = '+' ∨ c = '-' then rest else s
    | [] => []
  ¬ body.isEmpty ∧ body.all Char.isDigit

/-- The special-value clause of the `f64::from_str` grammar. -/
def isSpecialFloat (s : List Char) : Bool :=
  let l := s.map Char.toLower
  l = "inf".toList ∨ l = "infinity".toList ∨ l = "nan".toList

/-- Whether Rust's `f64::from_str` accepts the string. -/
def parsesF64 (s : List Char) : Bool :=
  let body := match s with
    | c :: rest => if c = '+' ∨ c = '-' then rest else s
    | [] => []
  isSpecialFloat body ||
    (match splitFirst (fun c => c = 'e' ∨ c = 'E') body with
      | none => mantissaOk body
      | some (m, ex) => mantissaOk m && exponentOk ex)

/-- ast.rs `Qbit::from_str`: `0q(<amp>, <amp>)` with distinct diagnostics for
each malformation.  The amplitudes are returned as their trimmed source text
(see the module comment on `f64` payloads); the Rust original stores
`s1.trim().parse::<f64>()` of the same slices. -/
def QbitLit.from_str (s : String) : Except QccErrorKind QbitLit :=
  let cs := s.toList
  if ¬ (['0', 'q'].isPrefixOf cs) then .error .ExpectedQbit
  else
    let cs := trimStartMatchesL ['0', 'q'] cs
    if ¬ (cs.head? = some '(' ∧ cs.getLast? = some ')') then .error .ExpectedParenth
    else
      match splitOnceL ',' (trimMatchesParen cs) with
      | none => .error .ExpectedComma
      | some (s1, s2) =>
        if ¬ parsesF64 (trimL s1) then .error .ExpectedAmpinQbit
        else if ¬ parsesF64 (trimL s2) then .error .ExpectedAmpinQbit
        else .ok ⟨String.mk (trimL s1), String.mk (trimL s2)⟩

/-! ### Helper lemmas -/

/-- `set_name` sets the name. -/
@[simp] theorem FunctionAST.name_set_name :
    ∀ (f : FunctionAST) (n : String), (f.set_name n).name = n
  | .mk _ _ _ _ _ _ _, _ => rfl

/-- `set_body` leaves the name unchanged. -/
@[simp] theorem FunctionAST.name_set_body :
    ∀ (f : FunctionAST) (b : ExprList), (f.set_body b).name = f.name
  | .mk _ _ _ _ _ _ _, _ => rfl

/-- `set_body` leaves the output type unchanged. -/
@[simp] theorem FunctionAST.output_type_set_body :
    ∀ (f : FunctionAST) (b : ExprList), (f.set_body b).output_type = f.output_type
  | .mk _ _ _ _ _ _ _, _ => rfl

/-- `set_body` sets the body. -/
@[simp] theorem FunctionAST.body_set_body :
    ∀ (f : FunctionAST) (b : ExprList), (f.set_body b).body = b
  | .mk _ _ _ _ _ _ _, _ => rfl

/-- `set_output_type` sets the output type. -/
@[simp] theorem FunctionAST.output_type_set_output_type :
    ∀ (f : FunctionAST) (t : Ty), (f.set_output_type t).output_type = t
  | .mk _ _ _ _ _ _ _, _ => rfl

/-- `set_output_type` leaves the body unchanged. -/
@[simp] theorem FunctionAST.body_set_output_type :
    ∀ (f : FunctionAST) (t : Ty), (f.set_output_type t).body = f.body
  | .mk _ _ _ _ _ _ _, _ => rfl

/-- `insert_input_type` appends to the input vector. -/
@[simp] theorem FunctionAST.input_type_insert :
    ∀ (f : FunctionAST) (t : Ty), (f.insert_input_type t).input_type = f.input_type ++ [t]
  | .mk _ _ _ _ _ _ _, _ => rfl

/-- `insert_input_type` leaves the output type unchanged. -/
@[simp] theorem FunctionAST.output_type_insert :
    ∀ (f : FunctionAST) (t : Ty), (f.insert_input_type t).output_type = f.output_type
  | .mk _ _ _ _ _ _ _, _ => rfl

/-- `insert_input_type` leaves the name unchanged. -/
@[simp] theorem FunctionAST.name_insert :
    ∀ (f : FunctionAST) (t : Ty), (f.insert_input_type t).name = f.name
  | .mk _ _ _ _ _ _ _, _ => rfl

/-- The functions produced by one module in a merge carry the
`<module>$<name>` names, in order. -/
theorem mergedFunctions_names (m : ModuleAST) :
    m.mergedFunctions.map FunctionAST.name
      = m.functions.map (fun fn => m.name ++ "$" ++ fn.name) := by
  simp [ModuleAST.mergedFunctions, List.map_map, Function.comp_def]

/-! ### Claim C1 -/

/-- C1: for the binary expression `0q(1, 0) * 2` (one operand of type `Qbit`,
the other of type `F64`), the structural `Expr::get_type` computes `Qbit` as
the spec states, but the inference engine's `infer_expr` computes
`bigtype(Qbit, F64) = F64`, contradicting the claim, the spec, the code's own
comment ("The resulting type will be of a qubit", inference.rs 358-361) and
`Expr::get_type`. -/
theorem qbit_f64_binary_inference_bug :
    Expr.get_type
        (.BinaryExpr (.Literal (.Lit_Qbit ⟨"1", "0"⟩)) .Mul (.Literal (.Lit_Digit "2")))
      = Ty.Qbit
    ∧ (inferExpr
        (.BinaryExpr (.Literal (.Lit_Qbit ⟨"1", "0"⟩)) .Mul (.Literal (.Lit_Digit "2")))).snd
      = some Ty.F64
    ∧ Ty.F64 ≠ Ty.Qbit := by
  refine ⟨rfl, ?_, by decide⟩
  simp [inferExpr, inferExprA, Ty.bigtype, Ty.rank]

/-! ### Claim C2 -/

/-- C2 counterexample: merge is not idempotent.  For the one-module program
`m { fn f }`, the first merge produces a `Main` module with one function named
`m$f`, but merging the merged program renames it again to `Main$m$f`. -/
theorem merge_idempotence_cex :
    ((Qast.merge (Qast.merge
        ⟨[⟨"m", Location.default,
          [.mk "f" Location.default [] [] .Bottom ⟨[]⟩ .nil]⟩]⟩)).modules.map
      (fun m => m.functions.map FunctionAST.name)) = [["Main$m$f"]]
    ∧ ((Qast.merge
        ⟨[⟨"m", Location.default,
          [.mk "f" Location.default [] [] .Bottom ⟨[]⟩ .nil]⟩]⟩).modules.map
      (fun m => m.functions.map FunctionAST.name)) = [["m$f"]] := by
  constructor <;> rfl

/-- C2 (amended): merging yields exactly one module, named `Main`, whose
functions appear in the original discovery order renamed
`<Module>$<Function>`; but merge is not idempotent: merging the already-merged
program renames every function again to `Main$<Module>$<Function>`. -/
theorem merge_monolith_structure (q : Qast) :
    (q.merge).modules.map ModuleAST.name = ["Main"]
    ∧ (q.merge).modules.map (fun m => m.functions.map FunctionAST.name)
      = [(q.modules.map
          (fun m => m.functions.map (fun fn => m.name ++ "$" ++ fn.name))).flatten]
    ∧ ((q.merge).merge).modules.map (fun m => m.functions.map FunctionAST.name)
      = [(q.modules.map
          (fun m => m.functions.map
            (fun fn => "Main" ++ "$" ++ (m.name ++ "$" ++ fn.name)))).flatten] := by
  refine ⟨rfl, ?_, ?_⟩
  · simp [Qast.merge, List.map_flatten, List.map_map, Function.comp_def,
      mergedFunctions_names]
  · simp [Qast.merge, ModuleAST.mergedFunctions, List.map_flatten, List.map_map,
      Function.comp_def]

/-! ### Claim C6 -/

/-- C6 counterexample: a conditional with a non-empty truth block and an empty
false block.  The claim demands `Bottom` (one branch empty), but `get_type`
only inspects the truth block and returns `F64`. -/
theorem conditional_type_cex :
    Expr.get_type
        (.Conditional (.Literal (.Lit_Digit "0"))
          (.cons (.Literal (.Lit_Digit "1")) .nil) .nil)
      = Ty.F64
    ∧ Ty.F64 ≠ Ty.Bottom := by
  exact ⟨rfl, by decide⟩

/-- Relates the `Conditional` arm of `get_type` to the last element of the
truth block. -/
theorem getTypeOfLast_eq_lastOption :
    ∀ (tb : ExprList) (last : Expr), tb.lastOption = some last →
      getTypeOfLast tb = last.get_type
  | .nil, _, h => by simp [ExprList.lastOption] at h
  | .cons x .nil, last, h => by
      simp [ExprList.lastOption] at h
      subst h; rfl
  | .cons _ (.cons y t), last, h => by
      have ih := getTypeOfLast_eq_lastOption (.cons y t) last
      simp only [ExprList.lastOption] at h
      simp only [getTypeOfLast]
      exact ih h

/-- C6 (amended): `type()` of a conditional is the type of the last expression
of the truth block, `Bottom` when the truth block is empty; the false block is
not consulted (in particular an empty false block does not force `Bottom`). -/
theorem conditional_type_truth_block (cond : Expr) (tb fb fb' : ExprList) :
    Expr.get_type (.Conditional cond tb fb) = Expr.get_type (.Conditional cond tb fb')
    ∧ (tb = .nil → Expr.get_type (.Conditional cond tb fb) = Ty.Bottom)
    ∧ (∀ last : Expr, tb.lastOption = some last →
        Expr.get_type (.Conditional cond tb fb) = last.get_type) := by
  refine ⟨rfl, ?_, ?_⟩
  · intro h; subst h; rfl
  · intro last h
    show getTypeOfLast tb = last.get_type
    exact getTypeOfLast_eq_lastOption tb last h

/-- C6 witness: the amended theorem applied to the counterexample shape. -/
theorem conditional_type_truth_block_witness :
    Expr.get_type
        (.Conditional (.Literal (.Lit_Digit "0"))
          (.cons (.Literal (.Lit_Digit "1")) .nil) .nil)
      = (Expr.Literal (.Lit_Digit "1")).get_type := by
  exact (conditional_type_truth_block (.Literal (.Lit_Digit "0"))
    (.cons (.Literal (.Lit_Digit "1")) .nil) .nil .nil).2.2
    (.Literal (.Lit_Digit "1")) rfl

/-! ### Claim C7 -/

/-- C7 counterexample: the words `if`, `else`, `import`, `alias`, `true`,
`false` are not in the lexer's keyword table (lexer.rs 362-370); all of them
lex as `Identifier`, contrary to the claim. -/
theorem keyword_table_cex :
    classifyWord "import" = Token.Identifier
    ∧ classifyWord "if" = Token.Identifier
    ∧ classifyWord "else" = Token.Identifier
    ∧ classifyWord "alias" = Token.Identifier
    ∧ classifyWord "true" = Token.Identifier
    ∧ classifyWord "false" = Token.Identifier := by
  decide

/-- C7 (amended): the keyword table classifies exactly `fn`, `return`,
`const`, `extern`, `module`, `let` as keyword tokens (with their respective
tokens), and every other word — including `if`, `else`, `import`, `alias`,
`true`, `false` — as `Identifier`. -/
theorem keyword_table_exact :
    (∀ s : String, classifyWord s ≠ Token.Identifier ↔
      s ∈ (["fn", "return", "const", "extern", "module", "let"] : List String))
    ∧ classifyWord "fn" = Token.Function
    ∧ classifyWord "return" = Token.Return
    ∧ classifyWord "const" = Token.Const
    ∧ classifyWord "extern" = Token.Extern
    ∧ classifyWord "module" = Token.Module
    ∧ classifyWord "let" = Token.Let := by
  refine ⟨?_, rfl, rfl, rfl, rfl, rfl, rfl⟩
  intro s
  unfold classifyWord
  constructor
  · intro h
    split at h
    all_goals simp_all
  · intro h
    simp only [List.mem_cons, List.not_mem_nil, or_false] at h
    rcases h with h | h | h | h | h | h <;> subst h <;> decide

/-! ### Claim C9 -/

/-- C9: the QASM translator emits exactly one gate (carrying the function's
name, which is mangled at this stage of the pipeline) per function whose
attribute list contains `NonDeter` — the `!attrs.is_empty()` conjunct of the
source is redundant — and no gate for any other function; the printed module
starts with the header line `OPENQASM 2.0;`. -/
theorem qasm_translate_gates_header (fns : List FunctionAST) :
    (QasmModule.translate fns).gates
      = (fns.filter (fun f => f.attrs.attrs.contains Attribute.NonDeter)).map
          QasmGate.ofFunction
    ∧ ((QasmModule.translate fns).gates.map QasmGate.name)
      = (fns.filter (fun f => f.attrs.attrs.contains Attribute.NonDeter)).map
          FunctionAST.name
    ∧ startsWithS (QasmModule.render (QasmModule.translate fns)) "OPENQASM 2.0;" = true := by
  have h1 : (QasmModule.translate fns).gates
      = (fns.filter (fun f => f.attrs.attrs.contains Attribute.NonDeter)).map
          QasmGate.ofFunction := by
    unfold QasmModule.translate
    show List.map QasmGate.ofFunction (List.filter
        (fun f => decide (¬ f.attrs.isEmpty = true
          ∧ f.attrs.attrs.contains Attribute.NonDeter = true)) fns)
      = List.map QasmGate.ofFunction (List.filter
        (fun f => f.attrs.attrs.contains Attribute.NonDeter) fns)
    congr 1
    apply List.filter_congr
    intro f _
    cases h : f.attrs.attrs.contains Attribute.NonDeter with
    | false => simp [h]
    | true =>
      have hne : f.attrs.attrs ≠ [] := by
        intro hnil
        rw [hnil] at h
        simp at h
      simp [h, Attributes.isEmpty, List.isEmpty_iff, hne]
  refine ⟨h1, ?_, ?_⟩
  · rw [h1]
    simp [List.map_map, Function.comp_def, QasmGate.ofFunction]
  · rw [startsWithS, List.isPrefixOf_iff_prefix]
    show "OPENQASM 2.0;".toList <+: (QasmModule.render (QasmModule.translate fns)).toList
    have hv : (QasmModule.translate fns).version = .V2_0 := rfl
    have hinc : (QasmModule.translate fns).includes = [] := rfl
    rw [QasmModule.render, hv, hinc]
    show "OPENQASM 2.0;".toList <+:
      ("OPENQASM " ++ QasmVersion.render .V2_0 ++ ";\n" ++ (String.join [] ++ _)).toList
    have hlit : ("OPENQASM " ++ QasmVersion.render .V2_0 ++ ";\n" : String)
        = "OPENQASM 2.0;" ++ "\n" := by decide
    rw [hlit]
    simp only [String.toList, String.data_append, List.append_assoc]
    exact List.prefix_append _ _

/-! ### Claim C5 -/

/-- `split_once` finds nothing exactly when the character is absent. -/
theorem splitOnceL_eq_none_iff (c : Char) (s : List Char) :
    splitOnceL c s = none ↔ c ∉ s := by
  induction s with
  | nil => simp [splitOnceL]
  | cons x xs ih =>
    simp only [splitOnceL, List.mem_cons]
    by_cases hx : x = c
    · subst hx
      simp
    · rw [if_neg hx]
      cases hsp : splitOnceL c xs with
      | none =>
        have hnotin : c ∉ xs := ih.mp hsp
        have hcx : ¬ c = x := fun h => hx h.symm
        simp [hnotin, hcx]
      | some p =>
        have hin : c ∈ xs := by
          by_contra hc
          rw [ih.mpr hc] at hsp
          cases hsp
        obtain ⟨a, b⟩ := p
        simp [hin]

/-- C5: `Qbit::from_str` produces `ExpectedQbit` when the string does not
start with `0q`; `ExpectedParenth` when the remainder (after stripping `0q`
prefixes) is not enclosed in parentheses; `ExpectedComma` when the
parenthesis-trimmed body contains no comma; `ExpectedAmpinQbit` when either
trimmed amplitude fails the `f64` grammar; and the three concrete examples of
the claim produce exactly the claimed diagnostics. -/
theorem qbit_literal_diagnostics :
    (∀ s : String, ¬ (['0', 'q'].isPrefixOf s.toList = true) →
      QbitLit.from_str s = .error .ExpectedQbit)
    ∧ (∀ s : String, ['0', 'q'].isPrefixOf s.toList = true →
        ¬ ((trimStartMatchesL ['0', 'q'] s.toList).head? = some '('
            ∧ (trimStartMatchesL ['0', 'q'] s.toList).getLast? = some ')') →
        QbitLit.from_str s = .error .ExpectedParenth)
    ∧ (∀ s : String, ['0', 'q'].isPrefixOf s.toList = true →
        ((trimStartMatchesL ['0', 'q'] s.toList).head? = some '('
          ∧ (trimStartMatchesL ['0', 'q'] s.toList).getLast? = some ')') →
        ',' ∉ trimMatchesParen (trimStartMatchesL ['0', 'q'] s.toList) →
        QbitLit.from_str s = .error .ExpectedComma)
    ∧ (∀ (s : String) (s1 s2 : List Char), ['0', 'q'].isPrefixOf s.toList = true →
        ((trimStartMatchesL ['0', 'q'] s.toList).head? = some '('
          ∧ (trimStartMatchesL ['0', 'q'] s.toList).getLast? = some ')') →
        splitOnceL ',' (trimMatchesParen (trimStartMatchesL ['0', 'q'] s.toList))
          = some (s1, s2) →
        (parsesF64 (trimL s1) = false ∨ parsesF64 (trimL s2) = false) →
        QbitLit.from_str s = .error .ExpectedAmpinQbit)
    ∧ QbitLit.from_str "0q0.5, 0.5)" = .error .ExpectedParenth
    ∧ QbitLit.from_str "0q(0.5 0.5)" = .error .ExpectedComma
    ∧ QbitLit.from_str "0q(1, a)" = .error .ExpectedAmpinQbit := by
  refine ⟨?_, ?_, ?_, ?_, by decide, by decide, by decide⟩
  · intro s h
    simp only [String.toList, List.isPrefixOf_iff_prefix] at h
    simp [QbitLit.from_str, h]
  · intro s hp h
    simp only [String.toList, List.isPrefixOf_iff_prefix] at hp
    simp only [String.toList] at h
    rw [not_and] at h
    simp [QbitLit.from_str, hp]
    intro h1 h2
    exact absurd h2 (h h1)
  · intro s hp henc hcomma
    rw [← splitOnceL_eq_none_iff] at hcomma
    simp only [String.toList, List.isPrefixOf_iff_prefix] at hp
    simp only [String.toList] at henc hcomma
    simp [QbitLit.from_str, hp, henc.1, henc.2, hcomma]
  · intro s s1 s2 hp henc hsplit hfail
    simp only [String.toList, List.isPrefixOf_iff_prefix] at hp
    simp only [String.toList] at henc hsplit
    rcases hfail with hf | hf
    · simp [QbitLit.from_str, hp, henc.1, henc.2, hsplit, hf]
    · by_cases h1 : parsesF64 (trimL s1) = true
      · simp [QbitLit.from_str, hp, henc.1, henc.2, hsplit, h1, hf]
      · simp only [Bool.not_eq_true] at h1
        simp [QbitLit.from_str, hp, henc.1, henc.2, hsplit, h1]

/-- C5 witness: the general conjuncts applied at concrete inputs. -/
theorem qbit_literal_diagnostics_witness :
    QbitLit.from_str "xq(1, 2)" = .error .ExpectedQbit
    ∧ QbitLit.from_str "0q[1, 2)" = .error .ExpectedParenth
    ∧ QbitLit.from_str "0q(1 2)" = .error .ExpectedComma
    ∧ QbitLit.from_str "0q(1, q)" = .error .ExpectedAmpinQbit := by
  obtain ⟨h1, h2, h3, h4, _⟩ := qbit_literal_diagnostics
  refine ⟨h1 "xq(1, 2)" (by decide), h2 "0q[1, 2)" (by decide) (by decide),
    h3 "0q(1 2)" (by decide) (by decide) (by decide),
    h4 "0q(1, q)" ['1'] [' ', 'q'] (by decide) (by decide) (by decide)
      (Or.inr (by decide))⟩

/-! ### Claim C4 -/

/-- C4: during table-based inference of a `let` whose right-hand side resolves
from the tables and whose two sides carry known (non-`Bottom`) but unequal
types, no diagnostic is produced exactly when one side is `Bit` and the other
`Qbit` (the declared subtyping rule), and every other unequal pair yields
`TypeMismatch`. -/
theorem let_bit_qbit_subtype_rule (pt lt ft : SymbolTable) (var : VarAST)
    (val val' : Expr)
    (hrhs : inferFromTable pt lt ft val = (val', none))
    (hv : var.type_ ≠ Ty.Bottom)
    (hw : val'.get_type ≠ Ty.Bottom)
    (hne : var.type_ ≠ val'.get_type) :
    (((var.type_ = Ty.Bit ∧ val'.get_type = Ty.Qbit)
        ∨ (var.type_ = Ty.Qbit ∧ val'.get_type = Ty.Bit)) →
      inferFromTable pt lt ft (.Let var val) = (.Let var val', none))
    ∧ (¬ ((var.type_ = Ty.Bit ∧ val'.get_type = Ty.Qbit)
        ∨ (var.type_ = Ty.Qbit ∧ val'.get_type = Ty.Bit)) →
      inferFromTable pt lt ft (.Let var val)
        = (.Let var val', some (.error QccErrorKind.TypeMismatch))) := by
  constructor
  · rintro (⟨h1, h2⟩ | ⟨h1, h2⟩) <;>
      simp [inferFromTable, hrhs, VarAST.is_typed, hv, h1, h2]
  · intro hnp
    cases hvt : var.type_ <;> cases hwt : val'.get_type <;>
      simp_all [inferFromTable, VarAST.is_typed]

/-- C4 witness: a `Bit` variable bound to a `Qbit` literal passes without
diagnostic; a `Bit` variable bound to an `F64` literal is a `TypeMismatch`. -/
theorem let_bit_qbit_subtype_rule_witness :
    inferFromTable [] [] []
        (.Let (VarAST.new_with_type "x" Location.default .Bit)
          (.Literal (.Lit_Qbit ⟨"1", "0"⟩)))
      = (.Let (VarAST.new_with_type "x" Location.default .Bit)
          (.Literal (.Lit_Qbit ⟨"1", "0"⟩)), none)
    ∧ inferFromTable [] [] []
        (.Let (VarAST.new_with_type "x" Location.default .Bit)
          (.Literal (.Lit_Digit "1")))
      = (.Let (VarAST.new_with_type "x" Location.default .Bit)
          (.Literal (.Lit_Digit "1")), some (.error QccErrorKind.TypeMismatch)) := by
  constructor
  · exact (let_bit_qbit_subtype_rule [] [] []
      (VarAST.new_with_type "x" Location.default .Bit)
      (.Literal (.Lit_Qbit ⟨"1", "0"⟩)) (.Literal (.Lit_Qbit ⟨"1", "0"⟩))
      rfl (by decide) (by decide) (by decide)).1 (Or.inl ⟨rfl, rfl⟩)
  · exact (let_bit_qbit_subtype_rule [] [] []
      (VarAST.new_with_type "x" Location.default .Bit)
      (.Literal (.Lit_Digit "1")) (.Literal (.Lit_Digit "1"))
      rfl (by decide) (by decide) (by decide)).2 (by decide)

/-! ### Claim C8 -/

/-- A string starting with `--` also starts with `-`. -/
theorem startsWithS_dash_of_ddash (s : String) (h : startsWithS s "--" = true) :
    startsWithS s "-" = true := by
  rw [startsWithS, List.isPrefixOf_iff_prefix] at h ⊢
  exact List.IsPrefix.trans (by decide) h

/-- C8: with a positional source file and no `-o`, the output path defaults to
the source path with `.ql` replaced by `.s`; a bare trailing `-o` with no
following argument keeps that default; and in `src -o -o X` the last `-o`
wins, making `X` the output path while the positional source is unaffected. -/
theorem cmdline_output_path_rules (is_file : String → Bool) (src X : String)
    (hsrc_flag : startsWithS src "-" = false)
    (hX_flag : startsWithS X "-" = false)
    (hsrc_ne : src ≠ "")
    (hfile : is_file src = true) :
    parseCmdline is_file [src]
      = .ok (some { Config.new with src := src, asm := replaceS src ".ql" ".s" })
    ∧ parseCmdline is_file [src, "-o"]
      = .ok (some { Config.new with src := src, asm := replaceS src ".ql" ".s" })
    ∧ parseCmdline is_file [src, "-o", "-o", X]
      = .ok (some { Config.new with src := src, asm := X }) := by
  have h2 : startsWithS src "--" = false := by
    cases h : startsWithS src "--" with
    | false => rfl
    | true => rw [startsWithS_dash_of_ddash src h] at hsrc_flag; cases hsrc_flag
  have hX2 : startsWithS X "--" = false := by
    cases h : startsWithS X "--" with
    | false => rfl
    | true => rw [startsWithS_dash_of_ddash X h] at hX_flag; cases hX_flag
  refine ⟨?_, ?_, ?_⟩ <;>
    simp +decide [parseCmdline, parseCmdlineLoop, h2, hsrc_flag, hX2, hX_flag,
      hsrc_ne, hfile]

/-- C8 witness: the three command lines evaluated at `a.ql` and `out.s` with
an all-accepting filesystem. -/
theorem cmdline_output_path_rules_witness :
    parseCmdline (fun _ => true) ["a.ql"]
      = .ok (some { Config.new with src := "a.ql", asm := replaceS "a.ql" ".ql" ".s" })
    ∧ parseCmdline (fun _ => true) ["a.ql", "-o"]
      = .ok (some { Config.new with src := "a.ql", asm := replaceS "a.ql" ".ql" ".s" })
    ∧ parseCmdline (fun _ => true) ["a.ql", "-o", "-o", "out.s"]
      = .ok (some { Config.new with src := "a.ql", asm := "out.s" }) :=
  cmdline_output_path_rules (fun _ => true) "a.ql" "out.s"
    (by decide) (by decide) (by decide) rfl

/-! ### Claim C3 -/

/-- C3: when a function's declared output type is `Bottom` and, after the body
pass, `infer_expr` on the last instruction yields a known non-`Bottom` type,
`infer` promotes the function's output type to that inferred type (and an
error-free run stays error-free). -/
theorem output_type_promotion (ft : SymbolTable) (f : FunctionAST)
    (body1 : ExprList) (loc : SymbolTable) (errs : Bool) (last last' : Expr) (t : Ty)
    (h0 : f.output_type = Ty.Bottom)
    (hbody : inferBody (f.params.foldl SymbolTable.push []) ft f.body
        (collectTypedLets f.body []) = (body1, loc, errs))
    (hlast : body1.lastOption = some last)
    (hinfer : inferExpr last = (last', some t))
    (ht : t ≠ Ty.Bottom)
    (herr : errs = false) :
    inferFunction ft f = ((f.set_body (body1.setLast last')).set_output_type t, false)
    ∧ ((inferFunction ft f).fst).output_type = t := by
  have h : inferFunction ft f
      = ((f.set_body (body1.setLast last')).set_output_type t, errs) := by
    simp only [inferFunction]
    rw [hbody]
    simp only []
    rw [hlast]
    simp only []
    rw [hinfer]
    simp [h0, ht]
  rw [herr] at h
  exact ⟨h, by rw [h]; simp⟩

/-- C3 witness: `fn f { let x = 42 }` (declared output `Bottom`) ends with
output type `F64` after inference. -/
theorem output_type_promotion_witness :
    ((inferFunction []
        (.mk "f" Location.default [] [] .Bottom ⟨[]⟩
          (.cons (.Let (VarAST.new "x" Location.default)
            (.Literal (.Lit_Digit "42"))) .nil))).fst).output_type = Ty.F64 := by
  exact (output_type_promotion []
    (.mk "f" Location.default [] [] .Bottom ⟨[]⟩
      (.cons (.Let (VarAST.new "x" Location.default) (.Literal (.Lit_Digit "42"))) .nil))
    (.cons (.Let ⟨"x", Location.default, .F64, false⟩ (.Literal (.Lit_Digit "42"))) .nil)
    [⟨"x", Location.default, .F64, false⟩] false
    (.Let ⟨"x", Location.default, .F64, false⟩ (.Literal (.Lit_Digit "42")))
    (.Let ⟨"x", Location.default, .F64, false⟩ (.Literal (.Lit_Digit "42")))
    Ty.F64
    rfl
    (by simp +decide [inferBody, inferInstruction, inferExpr, inferExprA,
      collectTypedLets, SymbolTable.push, VarAST.is_typed, VarAST.set_type,
      VarAST.new, FunctionAST.params, FunctionAST.body])
    rfl
    (by simp +decide [inferExpr, inferExprA])
    (by decide) rfl).2

/-! ### Claim C10 -/

/-- `inferArgs` on an empty argument list. -/
theorem inferArgs_nil (f : FunctionAST) : inferArgs f .nil = (f, .nil, true) := by
  simp [inferArgs, inferArgsA]

/-- `inferArgs` when the head argument fails to infer. -/
theorem inferArgs_cons_none (f : FunctionAST) (a a1 : Expr) (rest : ExprList)
    (hE : inferExpr a = (a1, none)) :
    inferArgs f (.cons a rest) = (f, .cons a1 rest, false) := by
  rcases hA : inferExprA a with ⟨⟨x, y⟩, hs⟩
  have hE2 : (x, y) = (a1, none) := by rw [inferExpr, hA] at hE; exact hE
  obtain ⟨h1, h2⟩ := Prod.mk.injEq .. |>.mp hE2
  subst h1; subst h2
  simp [inferArgs, inferArgsA, hA]

/-- `inferArgs` when the head argument infers to a type. -/
theorem inferArgs_cons_some (f : FunctionAST) (a a1 : Expr) (rest : ExprList)
    (t : Ty) (f2 : FunctionAST) (rest2 : ExprList) (ok : Bool)
    (hE : inferExpr a = (a1, some t))
    (hR : inferArgs (f.insert_input_type t) rest = (f2, rest2, ok)) :
    inferArgs f (.cons a rest) = (f2, .cons a1 rest2, ok) := by
  rcases hA : inferExprA a with ⟨⟨x, y⟩, hs⟩
  have hE2 : (x, y) = (a1, some t) := by rw [inferExpr, hA] at hE; exact hE
  obtain ⟨h1, h2⟩ := Prod.mk.injEq .. |>.mp hE2
  subst h1; subst h2
  rcases hRA : inferArgsA (f.insert_input_type t) rest with ⟨⟨g2, gs2, gok⟩, hs2⟩
  have hR2 : (g2, gs2, gok) = (f2, rest2, ok) := by rw [inferArgs, hRA] at hR; exact hR
  obtain ⟨e1, e23⟩ := Prod.mk.injEq .. |>.mp hR2
  obtain ⟨e2, e3⟩ := Prod.mk.injEq .. |>.mp e23
  subst e1; subst e2; subst e3
  simp [inferArgs, inferArgsA, hA, hRA]

/-- The argument loop of the `FnCall` arm of `infer_expr` only ever appends to
the callee's `input_type` (never clears it), appends exactly one type per
argument on full success, and leaves the callee's output type and name and the
argument count unchanged. -/
theorem inferArgs_spec : ∀ (es : ExprList) (f : FunctionAST),
    ((inferArgs f es).fst).output_type = f.output_type
    ∧ ((inferArgs f es).fst).name = f.name
    ∧ ((inferArgs f es).snd.fst).length = es.length
    ∧ ∃ ts : List Ty, ((inferArgs f es).fst).input_type = f.input_type ++ ts
        ∧ ((inferArgs f es).snd.snd = true → ts.length = es.length)
  | .nil, f => by
      rw [inferArgs_nil]
      exact ⟨rfl, rfl, rfl, [], by simp, fun _ => rfl⟩
  | .cons a rest, f => by
      rcases hE : inferExpr a with ⟨a1, topt⟩
      cases topt with
      | none =>
          rw [inferArgs_cons_none f a a1 rest hE]
          exact ⟨rfl, rfl, rfl, [], by simp, by simp⟩
      | some t =>
          rcases hR : inferArgs (f.insert_input_type t) rest with ⟨f2, rest2, ok⟩
          have ih := inferArgs_spec rest (f.insert_input_type t)
          rw [hR] at ih
          obtain ⟨iho, ihn, ihl, ts, ihi, ihlen⟩ := ih
          rw [inferArgs_cons_some f a a1 rest t f2 rest2 ok hE hR]
          refine ⟨?_, ?_, ?_, t :: ts, ?_, ?_⟩
          · simpa using iho
          · simpa using ihn
          · simp [ExprList.length, ihl]
          · rw [ihi]; simp
          · intro hok
            simp [ExprList.length, ihlen hok]

/-- `infer_from_table` over an expression list preserves the element count. -/
theorem inferFromTableList_length :
    ∀ (es : ExprList) (pt lt ft : SymbolTable) (es2 : ExprList)
      (r : Option (Except QccErrorKind Expr)),
      inferFromTableList pt lt ft es = (es2, r) → es2.length = es.length
  | .nil, pt, lt, ft, es2, r, h => by
      simp [inferFromTableList] at h
      rw [← h.1]
  | .cons x xs, pt, lt, ft, es2, r, h => by
      rcases hx : inferFromTable pt lt ft x with ⟨x1, info⟩
      cases info with
      | some i =>
          rw [inferFromTableList, hx] at h
          simp only at h
          obtain ⟨h1, _⟩ := Prod.mk.injEq .. |>.mp h
          rw [← h1]
          rfl
      | none =>
          rcases hxs : inferFromTableList pt lt ft xs with ⟨xs2, r2⟩
          have ih := inferFromTableList_length xs pt lt ft xs2 r2 hxs
          rw [inferFromTableList, hx, hxs] at h
          simp only at h
          obtain ⟨h1, _⟩ := Prod.mk.injEq .. |>.mp h
          rw [← h1]
          simp [ExprList.length, ih]

/-- A function-table lookup on a name for which every entry is untyped finds
nothing. -/
theorem lookupFirstTyped_none (st : SymbolTable) (nm : String)
    (h : ∀ v ∈ st, v.name = nm → v.type_ = Ty.Bottom) :
    lookupFirstTyped st nm = none := by
  induction st with
  | nil => rfl
  | cons p rest ih =>
      simp only [lookupFirstTyped]
      have hcond : ¬ (p.name = nm ∧ p.is_typed = true) := by
        rintro ⟨h1, h2⟩
        have hb := h p (List.mem_cons_self p rest) h1
        simp [VarAST.is_typed, hb] at h2
      rw [if_neg hcond]
      exact ih (fun v hv h1 => h v (List.mem_cons_of_mem _ hv) h1)

/-- The `FnCall` arm of `infer_expr` under a `Bottom` output type and a
non-empty, fully-inferable argument list. -/
theorem inferExpr_fncall_true (f : FunctionAST) (args : ExprList)
    (f' : FunctionAST) (args' : ExprList)
    (h1 : f.output_type = Ty.Bottom) (h2 : args.length ≠ 0)
    (h3 : inferArgs f args = (f', args', true)) :
    inferExpr (.FnCall f args) = (.FnCall f' args', some f'.output_type) := by
  rcases hA : inferArgsA f args with ⟨⟨g, as2, ok⟩, hsz⟩
  have hR2 : (g, as2, ok) = (f', args', true) := by rw [inferArgs, hA] at h3; exact h3
  obtain ⟨e1, e23⟩ := Prod.mk.injEq .. |>.mp hR2
  obtain ⟨e2, e3⟩ := Prod.mk.injEq .. |>.mp e23
  subst e1; subst e2; subst e3
  simp [inferExpr, inferExprA, h1, h2, hA]

/-- The `FnCall` arm of `infer_from_table` when the argument pass succeeds but
no typed entry for the callee exists: the call site keeps its `Bottom` output
type and an untyped-residual diagnostic is returned. -/
theorem inferFromTable_fncall_residual (pt lt ft : SymbolTable)
    (f : FunctionAST) (args args2 : ExprList)
    (hargs : inferFromTableList pt lt ft args = (args2, none))
    (hlook : lookupFirstTyped ft f.name = none) :
    inferFromTable pt lt ft (.FnCall f args)
      = (.FnCall f args2,
        some (.ok (.FnCall (.mk f.name f.location [] [] f.output_type ⟨[]⟩ .nil) .nil))) := by
  rw [inferFromTable, hargs]
  simp only []
  rw [hlook]

/-- C10: (a) `infer_expr` on a `FnCall` whose output type is `Bottom` and
whose argument list is non-empty and fully inferable appends exactly one type
per argument to the callee's `input_type` without clearing it; (b) since
`infer` runs `infer_expr` once in the body loop and once more on the last
instruction for the return-type check, a call in last position whose callee
stays unresolved (every function-table entry for its name untyped) gets its
argument types appended twice, doubling the appended length. -/
theorem fncall_input_type_append_doubles :
    (∀ (f : FunctionAST) (args : ExprList) (f' : FunctionAST) (args' : ExprList),
      f.output_type = Ty.Bottom → args ≠ .nil →
      inferArgs f args = (f', args', true) →
      inferExpr (.FnCall f args) = (.FnCall f' args', some f'.output_type)
      ∧ ∃ ts : List Ty, f'.input_type = f.input_type ++ ts ∧ ts.length = args.length)
    ∧ (∀ (ft : SymbolTable) (g f : FunctionAST) (args : ExprList)
        (f1 : FunctionAST) (args1 args2 : ExprList) (f2 : FunctionAST) (args3 : ExprList),
      g.body = .cons (.FnCall f args) .nil →
      f.output_type = Ty.Bottom → args ≠ .nil →
      inferArgs f args = (f1, args1, true) →
      inferFromTableList (g.params.foldl SymbolTable.push []) [] ft args1
        = (args2, none) →
      (∀ v ∈ ft, v.name = f.name → v.type_ = Ty.Bottom) →
      inferArgs f1 args2 = (f2, args3, true) →
      ((inferFunction ft g).fst).body = .cons (.FnCall f2 args3) .nil
      ∧ ∃ ts1 ts2 : List Ty, f2.input_type = (f.input_type ++ ts1) ++ ts2
          ∧ ts1.length = args.length ∧ ts2.length = args.length) := by
  have hlen0 : ∀ es : ExprList, es ≠ .nil → es.length ≠ 0 := by
    intro es h
    cases es with
    | nil => exact absurd rfl h
    | cons x xs => simp [ExprList.length]
  have parta : ∀ (f : FunctionAST) (args : ExprList) (f' : FunctionAST) (args' : ExprList),
      f.output_type = Ty.Bottom → args ≠ .nil →
      inferArgs f args = (f', args', true) →
      inferExpr (.FnCall f args) = (.FnCall f' args', some f'.output_type)
      ∧ ∃ ts : List Ty, f'.input_type = f.input_type ++ ts ∧ ts.length = args.length := by
    intro f args f' args' h1 h2 h3
    refine ⟨inferExpr_fncall_true f args f' args' h1 (hlen0 args h2) h3, ?_⟩
    have hs := inferArgs_spec args f
    rw [h3] at hs
    obtain ⟨_, _, _, ts, hi, hl⟩ := hs
    exact ⟨ts, hi, hl rfl⟩
  refine ⟨parta, ?_⟩
  intro ft g f args f1 args1 args2 f2 args3 hbody h1 h2 hp1 htab hft hp2
  -- facts from the first pass
  have hs1 := inferArgs_spec args f
  rw [hp1] at hs1
  obtain ⟨h1o, h1n, h1l, ts1, h1i, h1len⟩ := hs1
  have hf1out : f1.output_type = Ty.Bottom := h1o.trans h1
  -- the body pass turns the call into `FnCall f1 args2` and flags an error
  have hinfer1 : inferExpr (.FnCall f args) = (.FnCall f1 args1, some Ty.Bottom) := by
    rw [(parta f args f1 args1 h1 h2 hp1).1, hf1out]
  have hlook : lookupFirstTyped ft f1.name = none := by
    rw [h1n]
    exact lookupFirstTyped_none ft f.name hft
  have htbl : inferFromTable (g.params.foldl SymbolTable.push []) [] ft
      (.FnCall f1 args1)
      = (.FnCall f1 args2,
        some (.ok (.FnCall (.mk f1.name f1.location [] [] f1.output_type ⟨[]⟩ .nil) .nil))) :=
    inferFromTable_fncall_residual _ _ _ f1 args1 args2 htab hlook
  have hinstr : inferInstruction (g.params.foldl SymbolTable.push []) ft []
      (.FnCall f args) = (.FnCall f1 args2, [], true) := by
    rw [inferInstruction, hinfer1]
    simp only [ite_self, Option.isSome_some, ne_eq, or_true, if_true]
    rw [htbl]
  have hbodyrun : inferBody (g.params.foldl SymbolTable.push []) ft g.body
      (collectTypedLets g.body []) = (.cons (.FnCall f1 args2) .nil, [], true) := by
    rw [hbody]
    simp only [collectTypedLets]
    rw [inferBody, hinstr]
    simp [inferBody]
  -- facts from the second pass
  have hs2 := inferArgs_spec args2 f1
  rw [hp2] at hs2
  obtain ⟨h2o, _, _, ts2, h2i, h2len⟩ := hs2
  have hargs2len : args2.length = args.length := by
    have e1 := inferFromTableList_length args1 _ [] ft args2 none htab
    rw [e1, h1l]
  have hinfer2 : inferExpr (.FnCall f1 args2) = (.FnCall f2 args3, some f2.output_type) := by
    refine inferExpr_fncall_true f1 args2 f2 args3 hf1out ?_ hp2
    rw [hargs2len]
    exact hlen0 args h2
  constructor
  · simp only [inferFunction]
    rw [hbodyrun]
    simp only []
    rw [show (ExprList.cons (.FnCall f1 args2) .nil).lastOption
        = some (.FnCall f1 args2) from rfl]
    simp only []
    rw [hinfer2]
    simp only []
    split
    · simp [ExprList.setLast]
    · split <;> simp [ExprList.setLast]
  · refine ⟨ts1, ts2, ?_, h1len rfl, ?_⟩
    · rw [h2i, h1i]
    · rw [h2len rfl, hargs2len]

/-- C10 witness: a body consisting of the single call `g(1)` to a callee with
declared `Bottom` output type and no matching typed table entry ends inference
with the call site's `input_type` holding `[F64, F64]` — the one argument's
type appended once per `infer_expr` run. -/
theorem fncall_input_type_append_doubles_witness :
    ((inferFunction []
        (.mk "h" Location.default [] [] .Bottom ⟨[]⟩
          (.cons (.FnCall (.mk "g" Location.default [] [] .Bottom ⟨[]⟩ .nil)
            (.cons (.Literal (.Lit_Digit "1")) .nil)) .nil))).fst).body
      = .cons (.FnCall (.mk "g" Location.default [] [.F64, .F64] .Bottom ⟨[]⟩ .nil)
          (.cons (.Literal (.Lit_Digit "1")) .nil)) .nil := by
  exact (fncall_input_type_append_doubles.2 []
    (.mk "h" Location.default [] [] .Bottom ⟨[]⟩
      (.cons (.FnCall (.mk "g" Location.default [] [] .Bottom ⟨[]⟩ .nil)
        (.cons (.Literal (.Lit_Digit "1")) .nil)) .nil))
    (.mk "g" Location.default [] [] .Bottom ⟨[]⟩ .nil)
    (.cons (.Literal (.Lit_Digit "1")) .nil)
    (.mk "g" Location.default [] [.F64] .Bottom ⟨[]⟩ .nil)
    (.cons (.Literal (.Lit_Digit "1")) .nil)
    (.cons (.Literal (.Lit_Digit "1")) .nil)
    (.mk "g" Location.default [] [.F64, .F64] .Bottom ⟨[]⟩ .nil)
    (.cons (.Literal (.Lit_Digit "1")) .nil)
    rfl rfl
    (fun h => ExprList.noConfusion h)
    (by simp [inferArgs, inferArgsA, inferExprA, FunctionAST.insert_input_type])
    rfl
    (fun v hv => absurd hv (List.not_mem_nil v))
    (by simp [inferArgs, inferArgsA, inferExprA, FunctionAST.insert_input_type])).1

end Quale
